import Mathlib

/-!
Verification of the mesh-comparison utility (`python/compare.py`).

The script loads two hierarchical mesh files, assembles each into a flat
cell array (vertex coordinates gathered through connectivity, sub-blocks
concatenated) together with a per-cell field mapping, canonically reorders
both cell arrays by a per-cell sort key, and compares: shape, exact
topology, then each field of the first mesh within a fixed tolerance.

Modelling conventions of the shallow embedding:
* machine floats become exact rationals (`ℚ`); the comparison logic of the
  script (argsort by a key, `abs` difference against the constant `1e-14`
  under strict `>`) is arithmetic on values and is embedded verbatim;
* a numpy array of shape (n, v, d) becomes a `List` of `n` cells, each a
  list of `v` vertices, each a list of `d` coordinates; numpy arrays are
  always rectangular, which appears here as explicit hypotheses;
* `c.tobytes()` (line 63) is the fixed-width byte serialization of a
  cell's coordinate tuple; byte-lexicographic comparison of the keys of
  same-shape cells is a linear order on the coordinate tuples, injective
  in the cell content.  It is embedded as the lexicographic linear order
  on `List (List ℚ)`; every theorem below depends only on it being a
  linear order determined by the cell content;
* `np.argsort` is embedded as a deterministic (insertion) sort of the
  index range by that key; no theorem below depends on how it breaks
  ties between equal keys, and the counterexamples that exercise ties
  produce mismatching fields under every tie-breaking;
* process termination is reified in an `Outcome` value: `sys.exit(msg)`
  prints `msg` and terminates with status 1, a bare `sys.exit()` (line
  98) terminates with status 0, an uncaught exception (e.g. an
  out-of-bounds fancy index) terminates with a nonzero status.
-/

namespace Samurai

/-- Coordinates of one vertex (one row of a `points` dataset). -/
abbrev Coords := List ℚ

/-- One cell: the tuple of vertex coordinate tuples obtained by the gather
`points[:][conn[:]]`; a row of shape (vertices_per_cell, spatial_dim). -/
abbrev Cell := List Coords

/-- A flat cell array of shape (num_cells, vertices_per_cell, spatial_dim). -/
abbrev CellArray := List Cell

/-- Per-cell values of one field (one value per cell). -/
abbrev FieldData := List ℚ

/-- A field mapping: insertion-ordered association of field names to
per-cell value sequences (a python dict / an hdf5 `fields` group). -/
abbrev FieldMap := List (String × FieldData)

/-- One mesh block: a `points` dataset, a `connectivity` dataset and an
optional `fields` group (compare.py reads exactly these three keys). -/
structure Block where
  points : List Coords
  conn : List (List ℕ)
  fields : Option FieldMap
deriving DecidableEq

/-- A mesh root: either a single block (detected in the source by the
presence of a direct `points` entry) or a list of named sub-blocks in
iteration order. -/
inductive Mesh
  | single (b : Block)
  | multi (blocks : List Block)

/-- The gather `points[:][conn[:]]` (lines 27/34): resolve every
connectivity index through the point array.  An index out of range keeps
the default `[]`; all theorems that depend on gathers carry explicit
validity hypotheses instead. -/
def gather (points : List Coords) (conn : List (List ℕ)) : CellArray :=
  conn.map (fun cell => cell.map (fun i => points.getD i []))

/-- `construct_cells` (lines 23-37): single block gathers directly;
multiple blocks are gathered and concatenated in iteration order starting
from the accumulator `None`.  The result is `none` exactly when a
multi-block mesh has no blocks (in the source that `None` then crashes the
comparison). -/
def construct_cells : Mesh → Option CellArray
  | .single b => some (gather b.points b.conn)
  | .multi bs =>
    bs.foldl (fun acc b =>
      match acc with
      | none => some (gather b.points b.conn)
      | some out => some (out ++ gather b.points b.conn)) none

/-- One step of the multi-block field accumulation (lines 49-53): a name
already present has the new values concatenated onto its entry, a new
name is appended. -/
def upsertField (out : FieldMap) (fv : String × FieldData) : FieldMap :=
  if (out.lookup fv.1).isSome then
    out.map (fun gw => if gw.1 = fv.1 then (gw.1, gw.2 ++ fv.2) else gw)
  else out ++ [fv]

/-- `construct_fields` (lines 40-54): a single block returns its `fields`
group unchanged, or an empty mapping when the group is absent; a
multi-block mesh folds every block's fields through `upsertField`,
skipping blocks without a `fields` group. -/
def construct_fields : Mesh → FieldMap
  | .single b => b.fields.getD []
  | .multi bs =>
    bs.foldl (fun out b =>
      match b.fields with
      | none => out
      | some fm => fm.foldl upsertField out) []

/-- The assembled inputs of one comparison: the flat cell array and the
field mapping of one mesh. -/
structure MeshData where
  cells : CellArray
  fields : FieldMap
deriving DecidableEq

/-- Assembling a mesh (the two `construct_*` calls of lines 60-61/75-76);
`none` when `construct_cells` produced `None`. -/
def meshData (m : Mesh) : Option MeshData :=
  (construct_cells m).map (fun cs => ⟨cs, construct_fields m⟩)

/-- The canonical ordering key of a cell (line 63, `c.tobytes()`): the
cell's own coordinate tuple, compared through the lexicographic linear
order on `List (List ℚ)`. -/
def cellKey (cells : CellArray) (i : ℕ) : Cell :=
  cells.getD i []

/-- `np.argsort` over the canonical byte keys (lines 63-64): the index
range of the cell array sorted by key. -/
def argsort (cells : CellArray) : List ℕ :=
  List.insertionSort (fun i j => cellKey cells i ≤ cellKey cells j)
    (List.range cells.length)

/-- Fancy indexing `xs[idx]` of a list by a list of indices. -/
def permute (idx : List ℕ) (xs : List α) (d : α) : List α :=
  idx.map (fun i => xs.getD i d)

/-- The numpy shape of a (rectangular) cell array:
(num_cells, vertices_per_cell, spatial_dim). -/
def shapeOf (cells : CellArray) : ℕ × ℕ × ℕ :=
  (cells.length, (cells.headD []).length, ((cells.headD []).headD []).length)

/-- The fixed tolerance `tol = 1e-14` of line 78. -/
def tol : ℚ := 1 / 10 ^ 14

/-- `np.any(np.abs(w1 - w2) > tol)` (line 84) on the two reordered value
sequences: true when some element-wise absolute difference strictly
exceeds the tolerance. -/
def fieldValuesDiffer (w1 w2 : List ℚ) : Bool :=
  (w1.zip w2).any (fun pr => tol < |pr.1 - pr.2|)

/-- Fancy indexing `v[idx]` of a field value sequence (line 84): numpy
raises `IndexError` when some index is out of range, modelled by `none`. -/
def permuteField (idx : List ℕ) (v : FieldData) : Option (List ℚ) :=
  if idx.all (fun i => i < v.length) then
    some (idx.map (fun i => v.getD i 0))
  else none

/-- The distinguishing terminations of one `compare_meshes` call. -/
inductive Outcome
  | shapeMismatch (s1 s2 : ℕ × ℕ × ℕ)
  | cellsDiffer
  | missingField (f : String)
  | fieldMismatch (f : String)
  | indexError (f : String)
  | same
deriving DecidableEq

/-- The exit status of the process at each termination of
`compare_meshes`: `sys.exit(message)` terminates with status 1
(lines 69, 73, 82), the bare `sys.exit()` of line 98 terminates with
status 0, an uncaught `IndexError` terminates with a nonzero status, and
the success path returns normally (status 0 when the run ends). -/
def exitCode : Outcome → ℕ
  | .shapeMismatch _ _ => 1
  | .cellsDiffer => 1
  | .missingField _ => 1
  | .fieldMismatch _ => 0
  | .indexError _ => 1
  | .same => 0

/-- The field loop of lines 79-98 over the fields of the first mesh:
a name absent from the second mapping fails naming it; otherwise both
value sequences are reordered (out-of-range fancy indexing raising
`IndexError`) and compared against the tolerance; the loop falls through
to the success print when every field passes. -/
def checkFields (fields2 : FieldMap) (index1 index2 : List ℕ) :
    FieldMap → Outcome
  | [] => .same
  | (f, v1) :: rest =>
    match fields2.lookup f with
    | none => .missingField f
    | some v2 =>
      match permuteField index1 v1, permuteField index2 v2 with
      | some w1, some w2 =>
        if fieldValuesDiffer w1 w2 then .fieldMismatch f
        else checkFields fields2 index1 index2 rest
      | _, _ => .indexError f

/-- The body of `compare_meshes` (lines 57-99) on assembled data: argsort
both cell arrays by canonical key, check shapes, check exact equality of
the reordered cell arrays, then compare the fields of the first mesh. -/
def compareData (d1 d2 : MeshData) : Outcome :=
  let index1 := argsort d1.cells
  let index2 := argsort d2.cells
  if shapeOf d1.cells ≠ shapeOf d2.cells then
    .shapeMismatch (shapeOf d1.cells) (shapeOf d2.cells)
  else if permute index1 d1.cells [] ≠ permute index2 d2.cells [] then
    .cellsDiffer
  else
    checkFields d2.fields index1 index2 d1.fields

/-- `compare_meshes` on two mesh files; `none` models the uncontrolled
crash when a mesh assembles to `None`. -/
def compare_meshes (m1 m2 : Mesh) : Option Outcome :=
  match meshData m1, meshData m2 with
  | some d1, some d2 => some (compareData d1 d2)
  | _, _ => none

/-- The number of lines printed by one `compare_meshes` termination
(at least one on every path: each failure prints its diagnostic, success
prints the confirmation of line 99). -/
def linesPrinted : Outcome → ℕ
  | .shapeMismatch _ _ => 3
  | .cellsDiffer => 2
  | .missingField _ => 2
  | .fieldMismatch _ => 3
  | .indexError _ => 1
  | .same => 1

/-- The range-mode loop `for i in range(start, end+1)` of lines 102-104,
driven by fuel (the number of remaining indices): each index is compared
and any outcome other than `same` terminates the process, ending the
trace.  `files i` stands for the pair of meshes read from
`file1{i}.h5` / `file2{i}.h5`, already assembled. -/
def runFrom (files : ℤ → MeshData × MeshData) : ℕ → ℤ → List (ℤ × Outcome)
  | 0, _ => []
  | n + 1, i =>
    let o := compareData (files i).1 (files i).2
    if o = .same then (i, o) :: runFrom files n (i + 1) else [(i, o)]

/-- Range mode for `--start s --end e`: the trace of (index, outcome)
pairs actually processed. -/
def runRange (files : ℤ → MeshData × MeshData) (s e : ℤ) :
    List (ℤ × Outcome) :=
  runFrom files (e + 1 - s).toNat s

/-- Total number of lines printed by a range-mode run. -/
def rangeLinesPrinted (files : ℤ → MeshData × MeshData) (s e : ℤ) : ℕ :=
  ((runRange files s e).map (fun p => linesPrinted p.2)).sum

/-- The exit status of a range-mode run: the status of the terminating
comparison, or 0 when the loop runs to completion (including running
zero iterations). -/
def rangeExitCode (files : ℤ → MeshData × MeshData) (s e : ℤ) : ℕ :=
  match (runRange files s e).getLast? with
  | none => 0
  | some p => exitCode p.2

/-- A mesh permuted by an index list `p` (cell `j` of the image is cell
`p j` of the original), with every field's value sequence permuted
identically — the π(M) of the permutation-invariance property. -/
def permuteMesh (p : List ℕ) (d : MeshData) : MeshData :=
  ⟨permute p d.cells [], d.fields.map (fun fv => (fv.1, permute p fv.2 0))⟩

/-- Concrete data: a failing input for the exit-status claim — two
single-cell meshes with identical geometry whose only field differs by 1. -/
def exitBugLeft : MeshData := ⟨[[[0]]], [("p", [0])]⟩

/-- Concrete data: the right mesh of the exit-status failing input. -/
def exitBugRight : MeshData := ⟨[[[0]]], [("p", [1])]⟩

/-- Concrete data: an indexed family of file pairs for range mode in
which index 1 compares different and every other index compares same. -/
def filesW : ℤ → MeshData × MeshData := fun i =>
  if i = 1 then (exitBugLeft, exitBugRight) else (exitBugLeft, exitBugLeft)

/-- Concrete data: a single block with one 1-vertex cell and one field. -/
def blockW : Block := ⟨[[0]], [[0]], some [("f", [1])]⟩

/-- Concrete data: a mesh with two cells at identical coordinates
(duplicate canonical byte keys) carrying distinct field values. -/
def dupCellMesh : MeshData := ⟨[[[0]], [[0]]], [("f", [0, 1])]⟩

/-- The cell array produced by one block. -/
def gatherBlock (b : Block) : CellArray := gather b.points b.conn

/-- Connectivity re-indexed after its point array is shifted by `o`
entries. -/
def offsetConn (o : ℕ) (conn : List (List ℕ)) : List (List ℕ) :=
  conn.map (fun c => c.map (fun i => i + o))

/-- The per-name concatenation of two optional field mappings: the field
data a single block must hold to match the concatenation of two blocks. -/
def mergeFields : Option FieldMap → Option FieldMap → Option FieldMap
  | some fm1, some fm2 =>
    some (fm1.map (fun fv => (fv.1, fv.2 ++ ((fm2.lookup fv.1).getD []))))
  | some fm1, none => some fm1
  | none, x => x

/-- A single block holding the concatenation of the data of two blocks,
in order: points appended, connectivity of the second block shifted past
the first point array, fields concatenated per name. -/
def appendBlocks (b1 b2 : Block) : Block :=
  ⟨b1.points ++ b2.points,
   b1.conn ++ offsetConn b1.points.length b2.conn,
   mergeFields b1.fields b2.fields⟩

/-- A single block holding the concatenation of a whole block list. -/
def concatBlocks : List Block → Block
  | [] => ⟨[], [], none⟩
  | [b] => b
  | b :: b2 :: bs => appendBlocks b (concatBlocks (b2 :: bs))

/-- The values a block contributes to field `f` (empty when the block
has no `fields` group or no entry for `f`). -/
def blockFieldVal (b : Block) (f : String) : FieldData :=
  ((b.fields.getD []).lookup f).getD []

/-- Accumulation of one optional field contribution onto an optional
accumulated sequence, mirroring the create-or-concatenate branches of
`construct_fields`. -/
def optApp : Option FieldData → Option FieldData → Option FieldData
  | st, none => st
  | none, some v => some v
  | some u, some v => some (u ++ v)

end Samurai

namespace Samurai

/-- Shared evaluation fact: field values 0 and 1 differ beyond the
tolerance. -/
theorem fieldValuesDiffer_zero_one : fieldValuesDiffer [0] [1] = true := by
  norm_num [fieldValuesDiffer, tol, lt_abs]

/-- C3: the field comparison passes exactly when every element-wise
absolute difference between the two reordered value sequences is at most
the tolerance `1e-14`; a difference of exactly `1e-14` passes (the test
is strict `>` against the tolerance) and a difference of `1e-13` fails. -/
theorem fieldTolerance_boundary (w1 w2 : List ℚ) :
    (fieldValuesDiffer w1 w2 = false ↔
      ∀ pr ∈ w1.zip w2, |pr.1 - pr.2| ≤ tol) ∧
    tol = 1 / 10 ^ 14 ∧
    (fieldValuesDiffer [(0 : ℚ)] [1 / 10 ^ 14] = false) ∧
    (fieldValuesDiffer [(0 : ℚ)] [1 / 10 ^ 13] = true) := by
  refine ⟨?_, rfl, ?_, ?_⟩
  · simp only [fieldValuesDiffer, List.any_eq_false, decide_eq_true_eq, not_lt]
  · norm_num [fieldValuesDiffer, tol, abs_le]
  · norm_num [fieldValuesDiffer, tol, lt_abs]

/-- C2 (code bug): at a failing input that reaches the field-value
branch — identical single-cell geometry, field `p` equal to 0 in the
first file and 1 in the second — the comparison terminates through the
bare `sys.exit()` of line 98 with exit status 0, although every other
failure branch terminates with status 1. -/
theorem fieldMismatch_exit_status :
    compareData exitBugLeft exitBugRight = .fieldMismatch "p" ∧
    exitCode (compareData exitBugLeft exitBugRight) = 0 ∧
    exitCode (.shapeMismatch (1, 1, 1) (0, 0, 0)) = 1 ∧
    exitCode .cellsDiffer = 1 ∧
    exitCode (.missingField "p") = 1 ∧
    exitCode (.indexError "p") = 1 := by
  have h : compareData exitBugLeft exitBugRight = .fieldMismatch "p" := by
    simp +decide [compareData, exitBugLeft, exitBugRight, argsort, cellKey,
      shapeOf, permute, checkFields, permuteField, fieldValuesDiffer_zero_one]
  exact ⟨h, by simp [h, exitCode], rfl, rfl, rfl, rfl⟩

/-- C5: whenever the two cell arrays' shapes differ in any component, the
comparison reports both shapes and terminates with error status
immediately; the outcome does not depend on the field mappings (no field
comparison is performed), and it reports the shapes even though the
topology check was never consulted. -/
theorem shapeMismatch_immediate (c1 c2 : CellArray) (fs1 fs2 : FieldMap)
    (h : shapeOf c1 ≠ shapeOf c2) :
    compareData ⟨c1, fs1⟩ ⟨c2, fs2⟩ =
      .shapeMismatch (shapeOf c1) (shapeOf c2) ∧
    exitCode (compareData ⟨c1, fs1⟩ ⟨c2, fs2⟩) = 1 ∧
    (∀ fs1a fs2a : FieldMap,
      compareData ⟨c1, fs1a⟩ ⟨c2, fs2a⟩ = compareData ⟨c1, fs1⟩ ⟨c2, fs2⟩) := by
  refine ⟨?_, ?_, ?_⟩
  · simp [compareData, h]
  · simp [compareData, h, exitCode]
  · intro fs1a fs2a
    simp [compareData, h]

/-- Witness for C5 at a concrete input: one triangle-free toy mesh
against an empty one. -/
theorem shapeMismatch_immediate_witness :
    shapeOf [[[(0 : ℚ)]]] ≠ shapeOf ([] : CellArray) ∧
    compareData ⟨[[[(0 : ℚ)]]], []⟩ ⟨[], []⟩ =
      .shapeMismatch (shapeOf [[[(0 : ℚ)]]]) (shapeOf ([] : CellArray)) :=
  ⟨by decide, (shapeMismatch_immediate [[[(0 : ℚ)]]] [] [] [] (by decide)).1⟩

/-- C8: for a single-block mesh, `construct_cells` is exactly the direct
gather of points through connectivity (no concatenation step), and
`construct_fields` returns the block's field mapping unchanged when the
`fields` group exists and the empty mapping when it does not. -/
theorem singleBlock_assembly (b : Block) :
    construct_cells (.single b) = some (gather b.points b.conn) ∧
    (∀ fm, b.fields = some fm → construct_fields (.single b) = fm) ∧
    (b.fields = none → construct_fields (.single b) = []) :=
  ⟨rfl, fun fm h => by simp [construct_fields, h],
    fun h => by simp [construct_fields, h]⟩

/-- Witness for C8 at a concrete block. -/
theorem singleBlock_assembly_witness :
    blockW.fields = some [("f", [1])] ∧
    construct_fields (.single blockW) = [("f", [1])] :=
  ⟨rfl, (singleBlock_assembly blockW).2.1 [("f", [1])] rfl⟩

/-- C10: in range mode with start strictly greater than end, the loop
body never runs: zero comparisons are performed, nothing is printed and
the process exits normally with status 0. -/
theorem rangeMode_startGtEnd (files : ℤ → MeshData × MeshData) (s e : ℤ)
    (h : e < s) :
    runRange files s e = [] ∧ rangeLinesPrinted files s e = 0 ∧
    rangeExitCode files s e = 0 := by
  have h0 : (e + 1 - s).toNat = 0 := by omega
  have h1 : runRange files s e = [] := by
    rw [runRange, h0]
    rfl
  exact ⟨h1, by simp [rangeLinesPrinted, h1], by simp [rangeExitCode, h1]⟩

/-- Witness for C10 with start 1, end 0. -/
theorem rangeMode_startGtEnd_witness :
    (0 : ℤ) < 1 ∧ runRange filesW 1 0 = [] :=
  ⟨by norm_num, (rangeMode_startGtEnd filesW 1 0 (by norm_num)).1⟩

/-- Key with no entry in an association list: `lookup` misses. -/
theorem lookup_eq_none_of_notMem_keys {fs : FieldMap} {f : String}
    (h : f ∉ fs.map Prod.fst) : fs.lookup f = none := by
  rw [List.lookup_eq_none_iff]
  intro p hp
  have hmem : p.1 ∈ fs.map Prod.fst := List.mem_map_of_mem Prod.fst hp
  simp only [bne_iff_ne, ne_eq]
  rintro rfl
  exact h hmem

/-- The field loop cannot fall through to the success print while some
field of the first mapping has no entry in the second. -/
theorem checkFields_ne_same {fs1 fs2 : FieldMap} {f : String}
    (i1 i2 : List ℕ) (h1 : f ∈ fs1.map Prod.fst)
    (h2 : fs2.lookup f = none) :
    checkFields fs2 i1 i2 fs1 ≠ .same := by
  induction fs1 with
  | nil => simp at h1
  | cons fv rest ih =>
    obtain ⟨g, v⟩ := fv
    by_cases hgf : g = f
    · subst hgf
      rw [checkFields, h2]
      simp
    · have hrest : f ∈ rest.map Prod.fst := by
        simp only [List.map_cons, List.mem_cons] at h1
        exact h1.resolve_left (fun hh => hgf hh.symm)
      rw [checkFields]
      cases hL : fs2.lookup g with
      | none => simp [hL]
      | some v2 =>
        cases hp1 : permuteField i1 v with
        | none => simp [hL, hp1]
        | some w1 =>
          cases hp2 : permuteField i2 v2 with
          | none => simp [hL, hp1, hp2]
          | some w2 =>
            by_cases hd : fieldValuesDiffer w1 w2
            · simp [hL, hp1, hp2, hd]
            · simpa [hL, hp1, hp2, hd] using ih hrest

/-- A binding appended to the second mapping under a key the first
mapping never mentions is never looked up. -/
theorem checkFields_append_extra {fs1 fs2 : FieldMap} {g : String}
    (w : FieldData) (i1 i2 : List ℕ) (hg : g ∉ fs1.map Prod.fst) :
    checkFields (fs2 ++ [(g, w)]) i1 i2 fs1 = checkFields fs2 i1 i2 fs1 := by
  induction fs1 with
  | nil => rfl
  | cons fv rest ih =>
    obtain ⟨f, v⟩ := fv
    have hf : ¬(f == g) := by
      simp only [beq_iff_eq]
      rintro rfl
      exact hg (by simp)
    have hgrest : g ∉ rest.map Prod.fst := fun hh => hg (by simp [hh])
    have hl : (fs2 ++ [(g, w)]).lookup f = fs2.lookup f := by
      rw [List.lookup_append]
      cases fs2.lookup f with
      | some v2 => rfl
      | none => simp [List.lookup, hf]
    rw [checkFields, checkFields, hl]
    cases hL : fs2.lookup f with
    | none => simp [hL]
    | some v2 =>
      cases hp1 : permuteField i1 v with
      | none => simp [hL, hp1]
      | some w1 =>
        cases hp2 : permuteField i2 v2 with
        | none => simp [hL, hp1, hp2]
        | some w2 =>
          by_cases hd : fieldValuesDiffer w1 w2
          · simp [hL, hp1, hp2, hd]
          · simp [hL, hp1, hp2, hd, ih hgrest]

/-- C4: field checking is asymmetric.  A field of the first mapping
absent from the second forces a non-`same` outcome, and is reported by
name the moment the loop reaches it; a binding present only in the
second mapping is never consulted and cannot by itself change the
outcome. -/
theorem missingField_asymmetry (d1 d2 : MeshData) (f : String)
    (h1 : f ∈ d1.fields.map Prod.fst)
    (h2 : f ∉ d2.fields.map Prod.fst) :
    compareData d1 d2 ≠ .same ∧
    (∀ (v1 : FieldData) (rest : FieldMap),
      checkFields d2.fields (argsort d1.cells) (argsort d2.cells)
        ((f, v1) :: rest) = .missingField f) ∧
    (∀ (g : String) (w : FieldData), g ∉ d1.fields.map Prod.fst →
      ∀ (c2 : CellArray) (fs2 : FieldMap),
        compareData d1 ⟨c2, fs2 ++ [(g, w)]⟩ = compareData d1 ⟨c2, fs2⟩) := by
  have hnone : d2.fields.lookup f = none := lookup_eq_none_of_notMem_keys h2
  refine ⟨?_, ?_, ?_⟩
  · rw [compareData]
    by_cases hs : shapeOf d1.cells ≠ shapeOf d2.cells
    · simp [hs]
    · by_cases ht : permute (argsort d1.cells) d1.cells [] ≠
          permute (argsort d2.cells) d2.cells []
      · simp [hs, ht]
      · simpa [hs, ht] using checkFields_ne_same _ _ h1 hnone
  · intro v1 rest
    rw [checkFields, hnone]
  · intro g w hg c2 fs2
    rw [compareData, compareData]
    by_cases hs : shapeOf d1.cells ≠ shapeOf c2
    · simp [hs]
    · by_cases ht : permute (argsort d1.cells) d1.cells [] ≠
          permute (argsort c2) c2 []
      · simp [hs, ht]
      · simp [hs, ht, checkFields_append_extra w _ _ hg]

/-- Unfolding of the range-mode loop at a succeeding index. -/
theorem runFrom_succ_pos (files : ℤ → MeshData × MeshData) (n : ℕ) (i : ℤ)
    (h : compareData (files i).1 (files i).2 = .same) :
    runFrom files (n + 1) i = (i, .same) :: runFrom files n (i + 1) := by
  rw [runFrom]
  simp [h]

/-- Unfolding of the range-mode loop at a failing index. -/
theorem runFrom_succ_neg (files : ℤ → MeshData × MeshData) (n : ℕ) (i : ℤ)
    (h : ¬compareData (files i).1 (files i).2 = .same) :
    runFrom files (n + 1) i = [(i, compareData (files i).1 (files i).2)] := by
  rw [runFrom]
  simp [h]

/-- Every index in a range-mode trace is at least the start index. -/
theorem runFrom_le_fst (files : ℤ → MeshData × MeshData) :
    ∀ (n : ℕ) (i : ℤ), ∀ p ∈ runFrom files n i, i ≤ p.1 := by
  intro n
  induction n with
  | zero => intro i p hp; simp [runFrom] at hp
  | succ n ih =>
    intro i p hp
    by_cases ho : compareData (files i).1 (files i).2 = .same
    · rw [runFrom_succ_pos files n i ho] at hp
      rcases List.mem_cons.1 hp with rfl | hp
      · exact le_refl _
      · exact le_trans (by omega) (ih (i + 1) p hp)
    · rw [runFrom_succ_neg files n i ho] at hp
      rw [List.mem_singleton.1 hp]

/-- The indices of a range-mode trace are consecutive from the start. -/
theorem runFrom_map_fst (files : ℤ → MeshData × MeshData) :
    ∀ (n : ℕ) (i : ℤ),
      (runFrom files n i).map Prod.fst =
        (List.range (runFrom files n i).length).map
          (fun k : ℕ => i + (k : ℤ)) := by
  intro n
  induction n with
  | zero => intro i; simp [runFrom]
  | succ n ih =>
    intro i
    by_cases ho : compareData (files i).1 (files i).2 = .same
    · rw [runFrom_succ_pos files n i ho]
      simp only [List.map_cons, List.length_cons]
      rw [ih (i + 1), List.range_succ_eq_map, List.map_cons, List.map_map]
      refine congrArg₂ List.cons (by simp) ?_
      refine List.map_congr_left (fun k _ => ?_)
      simp only [Function.comp_apply]
      push_cast
      ring
    · rw [runFrom_succ_neg files n i ho]
      simp [List.range_succ]

/-- A range-mode trace never exceeds its fuel. -/
theorem runFrom_length_le (files : ℤ → MeshData × MeshData) :
    ∀ (n : ℕ) (i : ℤ), (runFrom files n i).length ≤ n := by
  intro n
  induction n with
  | zero => intro i; simp [runFrom]
  | succ n ih =>
    intro i
    by_cases ho : compareData (files i).1 (files i).2 = .same
    · rw [runFrom_succ_pos files n i ho]
      simpa using ih (i + 1)
    · rw [runFrom_succ_neg files n i ho]
      simp

/-- Every trace entry records the comparison outcome of its own index. -/
theorem runFrom_snd (files : ℤ → MeshData × MeshData) :
    ∀ (n : ℕ) (i : ℤ), ∀ p ∈ runFrom files n i,
      p.2 = compareData (files p.1).1 (files p.1).2 := by
  intro n
  induction n with
  | zero => intro i p hp; simp [runFrom] at hp
  | succ n ih =>
    intro i p hp
    by_cases ho : compareData (files i).1 (files i).2 = .same
    · rw [runFrom_succ_pos files n i ho] at hp
      rcases List.mem_cons.1 hp with rfl | hp
      · simpa using ho.symm
      · exact ih (i + 1) p hp
    · rw [runFrom_succ_neg files n i ho] at hp
      rw [List.mem_singleton.1 hp]

/-- A failing entry ends the trace: every processed index is at most the
failing one. -/
theorem runFrom_fail_last (files : ℤ → MeshData × MeshData) :
    ∀ (n : ℕ) (i : ℤ), ∀ p ∈ runFrom files n i, p.2 ≠ .same →
      ∀ q ∈ runFrom files n i, q.1 ≤ p.1 := by
  intro n
  induction n with
  | zero => intro i p hp; simp [runFrom] at hp
  | succ n ih =>
    intro i p hp hfail q hq
    by_cases ho : compareData (files i).1 (files i).2 = .same
    · rw [runFrom_succ_pos files n i ho] at hp hq
      rcases List.mem_cons.1 hp with rfl | hp
      · exact absurd rfl hfail
      · rcases List.mem_cons.1 hq with rfl | hq
        · exact le_trans (by omega) (runFrom_le_fst files n (i + 1) p hp)
        · exact ih (i + 1) p hp hfail q hq
    · rw [runFrom_succ_neg files n i ho] at hp hq
      rw [List.mem_singleton.1 hp, List.mem_singleton.1 hq]

/-- When every comparison in the window succeeds, the loop consumes all
its fuel. -/
theorem runFrom_full (files : ℤ → MeshData × MeshData) :
    ∀ (n : ℕ) (i : ℤ),
      (∀ k : ℕ, k < n →
        compareData (files (i + k)).1 (files (i + k)).2 = .same) →
      (runFrom files n i).length = n := by
  intro n
  induction n with
  | zero => intro i _; simp [runFrom]
  | succ n ih =>
    intro i h
    have h0 : compareData (files i).1 (files i).2 = .same := by
      have := h 0 (by omega)
      simpa using this
    rw [runFrom]
    simp only [h0, if_pos, List.length_cons]
    rw [ih (i + 1) (fun k hk => by
      have := h (k + 1) (by omega)
      have harg : i + ((k : ℤ) + 1) = i + 1 + (k : ℤ) := by ring
      simpa [harg] using this)]

/-- C6: in range mode the program processes indices consecutively from
`start` in increasing order, never more than `end - start + 1` of them;
every processed entry is the comparison outcome of its own index; any
failing index terminates the run, so no later index is ever processed;
and when every index in `[start, end]` compares the same, all of them are
processed. -/
theorem rangeMode_sequencing (files : ℤ → MeshData × MeshData) (s e : ℤ) :
    (runRange files s e).length ≤ (e + 1 - s).toNat ∧
    (runRange files s e).map Prod.fst =
      (List.range (runRange files s e).length).map
        (fun k : ℕ => s + (k : ℤ)) ∧
    (∀ p ∈ runRange files s e,
      p.2 = compareData (files p.1).1 (files p.1).2) ∧
    (∀ p ∈ runRange files s e, p.2 ≠ .same →
      ∀ q ∈ runRange files s e, q.1 ≤ p.1) ∧
    ((∀ i : ℤ, s ≤ i → i ≤ e →
        compareData (files i).1 (files i).2 = .same) →
      (runRange files s e).length = (e + 1 - s).toNat) := by
  refine ⟨runFrom_length_le files _ s, runFrom_map_fst files _ s,
    runFrom_snd files _ s, runFrom_fail_last files _ s, fun h => ?_⟩
  exact runFrom_full files _ s (fun k hk =>
    h (s + k) (by omega) (by omega))

/-- Witness for C6 at a concrete window: the processed indices of the run
over `[0, 2]` are consecutive from 0. -/
theorem rangeMode_sequencing_witness :
    (runRange filesW 0 2).map Prod.fst =
      (List.range (runRange filesW 0 2).length).map
        (fun k : ℕ => 0 + (k : ℤ)) :=
  (rangeMode_sequencing filesW 0 2).2.1

/-- Reading every position of a list in order reproduces the list. -/
theorem map_getD_range (xs : List α) (d : α) :
    (List.range xs.length).map (fun j => xs.getD j d) = xs := by
  apply List.ext_getElem (by simp)
  intro t h1 h2
  simp only [List.getElem_map, List.getElem_range]
  exact List.getD_eq_getElem xs d h2

/-- The argsort of a cell array is a permutation of its index range. -/
theorem argsort_perm (cells : CellArray) :
    (argsort cells).Perm (List.range cells.length) :=
  List.perm_insertionSort _ _

/-- The argsort of a cell array is sorted under the key order. -/
theorem argsort_sorted (cells : CellArray) :
    List.Sorted (fun i j => cellKey cells i ≤ cellKey cells j)
      (argsort cells) := by
  haveI : IsTotal ℕ (fun i j => cellKey cells i ≤ cellKey cells j) :=
    ⟨fun a b => le_total _ _⟩
  haveI : IsTrans ℕ (fun i j => cellKey cells i ≤ cellKey cells j) :=
    ⟨fun a b c hab hbc => le_trans hab hbc⟩
  exact List.sorted_insertionSort _ _

/-- The canonical keys read along the argsort are sorted. -/
theorem argsort_keys_sorted (cells : CellArray) :
    List.Sorted (· ≤ ·) ((argsort cells).map (cellKey cells)) :=
  List.Pairwise.map (cellKey cells) (fun _ _ h => h) (argsort_sorted cells)

/-- The cells read along the argsort are a permutation of the array. -/
theorem argsort_keys_perm (cells : CellArray) :
    ((argsort cells).map (cellKey cells)).Perm cells := by
  refine ((argsort_perm cells).map (cellKey cells)).trans ?_
  rw [show (List.range cells.length).map (cellKey cells) = cells from
    map_getD_range cells []]

/-- With pairwise-distinct canonical keys the argsort is the unique
index permutation whose key sequence is sorted. -/
theorem argsort_unique {cells : CellArray} (hnd : cells.Nodup)
    {q : List ℕ} (hq : q.Perm (List.range cells.length))
    (hs : List.Sorted (· ≤ ·) (q.map (cellKey cells))) :
    argsort cells = q := by
  have hqkeys : (q.map (cellKey cells)).Perm cells := by
    refine (hq.map (cellKey cells)).trans ?_
    rw [show (List.range cells.length).map (cellKey cells) = cells from
      map_getD_range cells []]
  have heq : (argsort cells).map (cellKey cells) = q.map (cellKey cells) :=
    List.eq_of_perm_of_sorted ((argsort_keys_perm cells).trans hqkeys.symm)
      (argsort_keys_sorted cells) hs
  have hlen : (argsort cells).length = q.length := by
    have h1 := (argsort_perm cells).length_eq
    have h2 := hq.length_eq
    simp only [List.length_range] at h1 h2
    omega
  apply List.ext_getElem hlen
  intro t h1 h2
  have ha : (argsort cells)[t] < cells.length :=
    List.mem_range.1 ((argsort_perm cells).subset (List.getElem_mem h1))
  have hb : q[t] < cells.length :=
    List.mem_range.1 (hq.subset (List.getElem_mem h2))
  have hk : cells[(argsort cells)[t]] = cells[q[t]] := by
    have h4 := congrArg (fun l => l[t]?) heq
    simp only [List.getElem?_map, List.getElem?_eq_getElem h1,
      List.getElem?_eq_getElem h2, Option.map_some] at h4
    have h5 : cellKey cells ((argsort cells)[t]) = cellKey cells q[t] :=
      Option.some.inj h4
    rwa [cellKey, cellKey, List.getD_eq_getElem cells [] ha,
      List.getD_eq_getElem cells [] hb] at h5
  have h7 : (⟨(argsort cells)[t], ha⟩ : Fin cells.length) = ⟨q[t], hb⟩ :=
    List.nodup_iff_injective_getElem.1 hnd hk
  exact congrArg Fin.val h7

/-- The shape of a rectangular nonempty cell array. -/
theorem shapeOf_eq_of_mem {cells : CellArray} {vc dim : ℕ}
    (h : ∀ c ∈ cells, c.length = vc ∧ ∀ x ∈ c, x.length = dim)
    (hne : cells ≠ []) :
    shapeOf cells = (cells.length, vc, if vc = 0 then 0 else dim) := by
  cases cells with
  | nil => exact absurd rfl hne
  | cons c cs =>
    obtain ⟨hc, hx⟩ := h c (List.mem_cons_self c cs)
    cases c with
    | nil =>
      simp only [shapeOf, List.headD_cons]
      simp [← hc]
    | cons x xs =>
      have hvc : vc ≠ 0 := by simp [← hc]
      simp only [shapeOf, List.headD_cons, hc, if_neg hvc]
      simp [hx x (List.mem_cons_self x xs)]

/-- Reordering a cell array is reading its keys along the index list. -/
theorem permute_eq_map_cellKey (idx : List ℕ) (cells : CellArray) :
    permute idx cells [] = idx.map (cellKey cells) := rfl

/-- The strict tolerance test never fires on two equal sequences. -/
theorem fieldValuesDiffer_self (v : List ℚ) :
    fieldValuesDiffer v v = false := by
  have h0 : ¬tol < 0 := by norm_num [tol]
  induction v with
  | nil => rfl
  | cons a t ih =>
    simp only [fieldValuesDiffer, List.zip_cons_cons, List.any_cons] at ih ⊢
    simp [sub_self, abs_zero, h0, ih]

/-- In-range fancy indexing of a field value sequence succeeds. -/
theorem permuteField_some {idx : List ℕ} {v : FieldData}
    (h : ∀ j ∈ idx, j < v.length) :
    permuteField idx v = some (idx.map (fun j => v.getD j 0)) := by
  have : idx.all (fun i => decide (i < v.length)) = true := by
    rw [List.all_eq_true]
    intro j hj
    exact decide_eq_true (h j hj)
  simp [permuteField, this]

/-- Looking a name up through a mapping whose values were permuted. -/
theorem lookup_permute (fs : FieldMap) (p : List ℕ) (f : String) :
    (fs.map (fun fv => (fv.1, permute p fv.2 0))).lookup f =
      (fs.lookup f).map (fun v => permute p v 0) := by
  induction fs with
  | nil => rfl
  | cons fv rest ih =>
    obtain ⟨g, v⟩ := fv
    cases h : f == g with
    | true => simp [List.lookup_cons, h]
    | false => simp [List.lookup_cons, h, ih]

/-- In a mapping with pairwise-distinct names, every entry is found by
looking up its own name. -/
theorem lookup_of_mem_nodup {fs : FieldMap} {f : String} {v : FieldData}
    (hnd : (fs.map Prod.fst).Nodup) (hmem : (f, v) ∈ fs) :
    fs.lookup f = some v := by
  induction fs with
  | nil => simp at hmem
  | cons fv rest ih =>
    obtain ⟨g, u⟩ := fv
    simp only [List.map_cons, List.nodup_cons] at hnd
    rcases List.mem_cons.1 hmem with heq | hmem2
    · obtain ⟨rfl, rfl⟩ := Prod.mk.inj heq
      simp [List.lookup_cons]
    · have hne : ¬(f == g) = true := by
        simp only [beq_iff_eq]
        rintro rfl
        exact hnd.1 (List.mem_map_of_mem Prod.fst hmem2)
      simp [List.lookup_cons, hne, ih hnd.2 hmem2]

/-- The field loop falls through to the success print when every field
of the first mapping reorders to the same sequence as its counterpart. -/
theorem checkFields_all_pass {fs1 fs2 : FieldMap} {i1 i2 : List ℕ}
    (h : ∀ fv ∈ fs1, ∃ u, permuteField i1 fv.2 = some u ∧
      ∃ v2, fs2.lookup fv.1 = some v2 ∧ permuteField i2 v2 = some u) :
    checkFields fs2 i1 i2 fs1 = .same := by
  induction fs1 with
  | nil => rfl
  | cons fv rest ih =>
    obtain ⟨f, v1⟩ := fv
    obtain ⟨u, hp1, v2, hl, hp2⟩ := h (f, v1) (List.mem_cons_self _ _)
    rw [checkFields, hl]
    simp only [hp1, hp2, fieldValuesDiffer_self u, Bool.false_eq_true,
      if_false]
    exact ih (fun fv hfv => h fv (List.mem_cons_of_mem _ hfv))

/-- C1 (amended): permutation invariance holds for every well-formed
mesh whose cells are pairwise distinct.  For a mesh with rectangular
cells, uniquely named fields, one field value per cell, and no two cells
with the same coordinate tuple (equivalently, the same canonical byte
key), comparing the mesh against any permutation of its cells — fields
permuted identically — reports same: the canonical key sort aligns the
two orderings, so the shape check, the topology check and every field
comparison pass. -/
theorem compare_permutation_invariant (d : MeshData) (p : List ℕ)
    (vc dim : ℕ) (hp : p.Perm (List.range d.cells.length))
    (hnd : d.cells.Nodup)
    (hsh : ∀ c ∈ d.cells, c.length = vc ∧ ∀ x ∈ c, x.length = dim)
    (hknd : (d.fields.map Prod.fst).Nodup)
    (hfl : ∀ fv ∈ d.fields, fv.2.length = d.cells.length) :
    compareData d (permuteMesh p d) = .same := by
  have hplen : p.length = d.cells.length := by simpa using hp.length_eq
  have hpmem : ∀ j ∈ p, j < d.cells.length := fun j hj =>
    List.mem_range.1 (hp.subset hj)
  have hc2len : (permute p d.cells []).length = d.cells.length := by
    simp [permute, hplen]
  have hc2sub : ∀ c ∈ permute p d.cells [], c ∈ d.cells := by
    intro c hc
    simp only [permute, List.mem_map] at hc
    obtain ⟨j, hj, rfl⟩ := hc
    rw [List.getD_eq_getElem d.cells [] (hpmem j hj)]
    exact List.getElem_mem _
  have hkey : ∀ j < d.cells.length,
      cellKey (permute p d.cells []) j = cellKey d.cells (p.getD j 0) := by
    intro j hj
    have hjp : j < p.length := by omega
    simp only [cellKey, permute]
    rw [List.getD_eq_getElem _ [] (by simpa using hjp), List.getElem_map,
      List.getD_eq_getElem p 0 hjp]
  have hi2perm : (argsort (permute p d.cells [])).Perm
      (List.range d.cells.length) := by
    have h := argsort_perm (permute p d.cells [])
    rwa [hc2len] at h
  have hi2mem : ∀ j ∈ argsort (permute p d.cells []),
      j < d.cells.length := fun j hj => List.mem_range.1 (hi2perm.subset hj)
  have hqperm : ((argsort (permute p d.cells [])).map
      (fun j => p.getD j 0)).Perm (List.range d.cells.length) := by
    have h1 : (List.range d.cells.length).map (fun j => p.getD j 0) = p := by
      rw [← hplen]
      exact map_getD_range p 0
    refine (hi2perm.map _).trans ?_
    rw [h1]
    exact hp
  have hqkeys : ((argsort (permute p d.cells [])).map
        (fun j => p.getD j 0)).map (cellKey d.cells) =
      (argsort (permute p d.cells [])).map
        (cellKey (permute p d.cells [])) := by
    rw [List.map_map]
    refine List.map_congr_left (fun j hj => ?_)
    simp only [Function.comp_apply]
    exact (hkey j (hi2mem j hj)).symm
  have hqsorted : List.Sorted (· ≤ ·)
      (((argsort (permute p d.cells [])).map
        (fun j => p.getD j 0)).map (cellKey d.cells)) := by
    rw [hqkeys]
    exact argsort_keys_sorted _
  have hi1 : argsort d.cells =
      (argsort (permute p d.cells [])).map (fun j => p.getD j 0) :=
    argsort_unique hnd hqperm hqsorted
  have hshape : shapeOf d.cells = shapeOf (permute p d.cells []) := by
    by_cases hn : d.cells = []
    · have hp0 : p = [] := by
        have := hp
        rw [hn] at this
        simpa using this.eq_nil
      simp [hn, hp0, permute]
    · have hc2ne : permute p d.cells [] ≠ [] := by
        have : (permute p d.cells []).length ≠ 0 := by
          rw [hc2len]
          simpa [List.length_eq_zero] using hn
        simpa [List.length_eq_zero] using this
      rw [shapeOf_eq_of_mem hsh hn,
        shapeOf_eq_of_mem (fun c hc => hsh c (hc2sub c hc)) hc2ne, hc2len]
  have htopo : permute (argsort d.cells) d.cells [] =
      permute (argsort (permute p d.cells [])) (permute p d.cells []) [] := by
    rw [permute_eq_map_cellKey, permute_eq_map_cellKey, hi1, hqkeys]
  rw [compareData]
  rw [if_neg (fun hh => hh hshape)]
  rw [if_neg (fun hh => hh htopo)]
  apply checkFields_all_pass
  intro fv hfv
  obtain ⟨f, v1⟩ := fv
  have hv1len : v1.length = d.cells.length := hfl (f, v1) hfv
  refine ⟨(argsort d.cells).map (fun j => v1.getD j 0), ?_, ?_⟩
  · exact permuteField_some (fun j hj => by
      rw [hv1len]
      exact List.mem_range.1 ((argsort_perm d.cells).subset hj))
  · refine ⟨permute p v1 0, ?_, ?_⟩
    · show (d.fields.map (fun fv => (fv.1, permute p fv.2 0))).lookup f = _
      rw [lookup_permute, lookup_of_mem_nodup hknd hfv]
      rfl
    · have hlen2 : (permute p v1 0).length = d.cells.length := by
        simp [permute, hplen]
      rw [permuteField_some (fun j hj => by
        rw [hlen2]
        exact hi2mem j hj)]
      refine congrArg some ?_
      rw [hi1, List.map_map]
      refine List.map_congr_left (fun j hj => ?_)
      simp only [Function.comp_apply, permute]
      rw [List.getD_eq_getElem _ 0 (by
          simpa [hplen] using hi2mem j hj),
        List.getElem_map, List.getD_eq_getElem p 0 (by
          rw [hplen]
          exact hi2mem j hj)]

/-- Shared evaluation fact: the value pairs (0, 1) and (1, 0) differ
beyond the tolerance. -/
theorem fieldValuesDiffer_swap :
    fieldValuesDiffer [0, 1] [1, 0] = true := by
  norm_num [fieldValuesDiffer, tol, lt_abs]

/-- C1 as stated is false on the code: for the mesh with two cells at
identical coordinates and field values 0 and 1, swapping the two cells
(a permutation, with the field permuted identically) makes the
comparison report a field mismatch, because the byte-key sort cannot
disambiguate the two equal keys and misaligns the field values. -/
theorem compare_permutation_invariant_cex :
    [1, 0].Perm (List.range dupCellMesh.cells.length) ∧
    compareData dupCellMesh (permuteMesh [1, 0] dupCellMesh) =
      .fieldMismatch "f" ∧
    compareData dupCellMesh (permuteMesh [1, 0] dupCellMesh) ≠ .same := by
  refine ⟨by decide, ?_⟩
  have h : compareData dupCellMesh (permuteMesh [1, 0] dupCellMesh) =
      .fieldMismatch "f" := by
    simp +decide [compareData, dupCellMesh, permuteMesh, permute, argsort,
      cellKey, shapeOf, checkFields, permuteField, fieldValuesDiffer_swap]
  exact ⟨h, by simp [h]⟩

/-- Witness for the amended C1: a two-cell mesh with distinct cells,
swapped. -/
theorem compare_permutation_invariant_witness :
    compareData ⟨[[[0]], [[1]]], [("f", [5, 7])]⟩
      (permuteMesh [1, 0] ⟨[[[0]], [[1]]], [("f", [5, 7])]⟩) = .same :=
  compare_permutation_invariant ⟨[[[0]], [[1]]], [("f", [5, 7])]⟩ [1, 0] 1 1
    (by decide) (by decide) (by decide) (by decide) (by decide)

/-- The cell accumulator of `construct_cells`, once seeded, appends the
remaining gathers in order. -/
theorem foldl_cells_some (bs : List Block) :
    ∀ out : CellArray,
      bs.foldl (fun acc b =>
        match acc with
        | none => some (gather b.points b.conn)
        | some o => some (o ++ gather b.points b.conn)) (some out) =
      some (out ++ (bs.map gatherBlock).flatten) := by
  induction bs with
  | nil => intro out; simp
  | cons b rest ih =>
    intro out
    simp only [List.foldl_cons, List.map_cons, List.flatten_cons]
    rw [ih (out ++ gather b.points b.conn), List.append_assoc]
    rfl

/-- C7 cells half: a multi-block mesh assembles to the block-iteration
order concatenation of the per-block gathers. -/
theorem construct_cells_multi (b : Block) (bs : List Block) :
    construct_cells (.multi (b :: bs)) =
      some (((b :: bs).map gatherBlock).flatten) := by
  simp only [construct_cells, List.foldl_cons, List.map_cons,
    List.flatten_cons]
  exact foldl_cells_some bs (gather b.points b.conn)

/-- Gathering through an appended point array and offset connectivity
splits into the two original gathers. -/
theorem gather_append (p1 p2 : List Coords) (c1 c2 : List (List ℕ))
    (h1 : ∀ c ∈ c1, ∀ i ∈ c, i < p1.length) :
    gather (p1 ++ p2) (c1 ++ offsetConn p1.length c2) =
      gather p1 c1 ++ gather p2 c2 := by
  rw [gather, List.map_append]
  refine congrArg₂ (· ++ ·) ?_ ?_
  · refine List.map_congr_left (fun c hc => ?_)
    refine List.map_congr_left (fun i hi => ?_)
    exact List.getD_append p1 p2 [] i (h1 c hc i hi)
  · rw [offsetConn, List.map_map]
    refine List.map_congr_left (fun c _ => ?_)
    simp only [Function.comp_apply, List.map_map]
    refine List.map_congr_left (fun i _ => ?_)
    simp only [Function.comp_apply]
    rw [List.getD_append_right p1 p2 [] (i + p1.length)
      (Nat.le_add_left _ _), Nat.add_sub_cancel]

/-- The concatenated block gathers to the concatenation of the gathers. -/
theorem gatherBlock_concat :
    ∀ (bs : List Block), bs ≠ [] →
      (∀ b ∈ bs, ∀ c ∈ b.conn, ∀ i ∈ c, i < b.points.length) →
      gatherBlock (concatBlocks bs) = (bs.map gatherBlock).flatten
  | [], h, _ => absurd rfl h
  | [b], _, _ => by simp [concatBlocks]
  | b :: b2 :: bs, _, hv => by
    have ih := gatherBlock_concat (b2 :: bs) (by simp)
      (fun x hx => hv x (List.mem_cons_of_mem b hx))
    simp only [concatBlocks, List.map_cons, List.flatten_cons]
    rw [gatherBlock, appendBlocks]
    rw [gather_append _ _ _ _ (hv b (List.mem_cons_self b _))]
    rw [← List.flatten_cons, ← List.map_cons]
    exact congrArg₂ (· ++ ·) rfl ih

/-- Folding a field group whose names are all new appends it whole. -/
theorem foldl_upsert_disjoint :
    ∀ (fm acc : FieldMap), (∀ fv ∈ fm, fv.1 ∉ acc.map Prod.fst) →
      (fm.map Prod.fst).Nodup →
      fm.foldl upsertField acc = acc ++ fm
  | [], acc, _, _ => by simp
  | (f, v) :: rest, acc, hd, hnd => by
    have hno : (acc.lookup f).isSome = false := by
      rw [lookup_eq_none_of_notMem_keys (hd (f, v) (List.mem_cons_self _ _))]
      rfl
    simp only [List.foldl_cons]
    rw [show upsertField acc (f, v) = acc ++ [(f, v)] by
      simp [upsertField, hno]]
    simp only [List.map_cons, List.nodup_cons] at hnd
    rw [foldl_upsert_disjoint rest (acc ++ [(f, v)]) ?_ hnd.2]
    · simp
    · intro fv hfv
      simp only [List.map_append, List.mem_append, List.map_cons,
        List.map_nil, List.mem_singleton]
      rintro (hmem | heq)
      · exact hd fv (List.mem_cons_of_mem _ hfv) hmem
      · exact hnd.1 (heq ▸ List.mem_map_of_mem Prod.fst hfv)

/-- Updating the entry of one present name keeps every other key. -/
theorem upsert_present (acc : FieldMap) (f : String) (v : FieldData)
    (h : (acc.lookup f).isSome) :
    upsertField acc (f, v) =
      acc.map (fun gw => if gw.1 = f then (gw.1, gw.2 ++ v) else gw) := by
  simp [upsertField, h]

/-- Folding a field group whose names are all already present updates
every accumulated entry by its own looked-up suffix. -/
theorem foldl_upsert_subset :
    ∀ (fm acc : FieldMap), (∀ fv ∈ fm, fv.1 ∈ acc.map Prod.fst) →
      (fm.map Prod.fst).Nodup →
      fm.foldl upsertField acc =
        acc.map (fun gw => (gw.1, gw.2 ++ ((fm.lookup gw.1).getD [])))
  | [], acc, _, _ => by simp
  | (f, v) :: rest, acc, hs, hnd => by
    simp only [List.map_cons, List.nodup_cons] at hnd
    have hsome : (acc.lookup f).isSome := by
      rw [List.lookup_isSome_iff]
      have := hs (f, v) (List.mem_cons_self _ _)
      simp only [List.mem_map] at this
      obtain ⟨p, hp, he⟩ := this
      exact ⟨p, hp, by simp [he]⟩
    simp only [List.foldl_cons]
    rw [upsert_present acc f v hsome]
    have hkeys : (acc.map
        (fun gw => if gw.1 = f then (gw.1, gw.2 ++ v) else gw)).map Prod.fst =
        acc.map Prod.fst := by
      rw [List.map_map]
      refine List.map_congr_left (fun gw _ => ?_)
      by_cases hg : gw.1 = f <;> simp [hg]
    rw [foldl_upsert_subset rest _ (fun fv hfv => by
        rw [hkeys]
        exact hs fv (List.mem_cons_of_mem _ hfv)) hnd.2]
    rw [List.map_map]
    refine List.map_congr_left (fun gw _ => ?_)
    simp only [Function.comp_apply]
    by_cases hg : gw.1 = f
    · have hrest : rest.lookup f = none :=
        lookup_eq_none_of_notMem_keys hnd.1
      simp [hg, hrest, List.lookup_cons, List.append_assoc]
    · have : ¬(gw.1 == f) = true := by simpa using hg
      simp [hg, List.lookup_cons, this]

/-- An association list is rebuilt from its key list and lookups. -/
theorem fields_reconstruct :
    ∀ (fm : FieldMap), (fm.map Prod.fst).Nodup →
      (fm.map Prod.fst).map (fun f => (f, (fm.lookup f).getD [])) = fm
  | [], _ => rfl
  | (g, v) :: rest, hnd => by
    simp only [List.map_cons, List.nodup_cons] at hnd
    simp only [List.map_cons, List.lookup_cons_self, Option.getD_some]
    refine congrArg₂ List.cons rfl ?_
    rw [show ((g, v) :: rest : FieldMap) = [(g, v)] ++ rest from rfl]
    calc (rest.map Prod.fst).map
          (fun f => (f, (([(g, v)] ++ rest).lookup f).getD []))
        = (rest.map Prod.fst).map (fun f => (f, (rest.lookup f).getD [])) := by
          refine List.map_congr_left (fun f hf => ?_)
          have hfg : ¬(f == g) = true := by
            simp only [beq_iff_eq]
            rintro rfl
            exact hnd.1 hf
          rw [List.lookup_append]
          simp [List.lookup_cons, hfg]
      _ = rest := fields_reconstruct rest hnd.2

/-- Looking up a vertex of the name graph of a function. -/
theorem lookup_map_graph (g : String → FieldData) :
    ∀ (names : List String) (x : String), x ∈ names →
      (names.map (fun f => (f, g f))).lookup x = some (g x)
  | [], x, hx => absurd hx (List.not_mem_nil x)
  | n :: ns, x, hx => by
    by_cases hxn : x = n
    · simp [List.lookup_cons, hxn]
    · have hx2 : x ∈ ns := (List.mem_cons.1 hx).resolve_left hxn
      have : ¬(x == n) = true := by simpa using hxn
      simp [List.lookup_cons, this, lookup_map_graph g ns x hx2]

/-- A block with the common name list contributes its own entries as
the name graph of its field values. -/
theorem block_graph {b : Block} {fm : FieldMap} {names : List String}
    (hbf : b.fields = some fm) (hkeys : fm.map Prod.fst = names)
    (hnd : names.Nodup) :
    names.map (fun f => (f, blockFieldVal b f)) = fm := by
  subst hkeys
  calc (fm.map Prod.fst).map (fun f => (f, blockFieldVal b f))
      = (fm.map Prod.fst).map (fun f => (f, (fm.lookup f).getD [])) := by
        refine List.map_congr_left (fun f _ => ?_)
        simp [blockFieldVal, hbf]
    _ = fm := fields_reconstruct fm hnd

/-- The multi-block field fold, seeded with an accumulator carrying the
common name list, appends every block's contribution per name. -/
theorem foldl_blocks_fields (names : List String) (hnnd : names.Nodup) :
    ∀ (bs : List Block) (acc : FieldMap), acc.map Prod.fst = names →
      (∀ b ∈ bs, ∃ fm, b.fields = some fm ∧ fm.map Prod.fst = names) →
      bs.foldl (fun out b =>
        match b.fields with
        | none => out
        | some fm => fm.foldl upsertField out) acc =
      acc.map (fun gw =>
        (gw.1, gw.2 ++ (bs.map (fun b => blockFieldVal b gw.1)).flatten))
  | [], acc, _, _ => by simp
  | b :: bs, acc, hacc, hb => by
    obtain ⟨fm, hbf, hkeys⟩ := hb b (List.mem_cons_self _ _)
    simp only [List.foldl_cons, hbf]
    rw [foldl_upsert_subset fm acc
      (fun fv hfv => by
        rw [hacc, ← hkeys]
        exact List.mem_map_of_mem Prod.fst hfv)
      (by rw [hkeys]; exact hnnd)]
    have hkeys2 : (acc.map
        (fun gw => (gw.1, gw.2 ++ ((fm.lookup gw.1).getD [])))).map Prod.fst =
        names := by
      rw [List.map_map]
      rw [show (Prod.fst ∘ fun gw : String × FieldData =>
        (gw.1, gw.2 ++ ((fm.lookup gw.1).getD []))) = Prod.fst from rfl]
      exact hacc
    rw [foldl_blocks_fields names hnnd bs _ hkeys2
      (fun x hx => hb x (List.mem_cons_of_mem _ hx))]
    rw [List.map_map]
    refine List.map_congr_left (fun gw _ => ?_)
    simp only [Function.comp_apply, List.map_cons, List.flatten_cons]
    rw [show blockFieldVal b gw.1 = (fm.lookup gw.1).getD [] by
      simp [blockFieldVal, hbf]]
    rw [List.append_assoc]

/-- C7 fields half: a multi-block mesh assembles its field mapping to
the per-name block-iteration-order concatenation of the blocks'
contributions. -/
theorem construct_fields_multi (bs : List Block) (names : List String)
    (hne : bs ≠ []) (hnnd : names.Nodup)
    (hf : ∀ b ∈ bs, ∃ fm, b.fields = some fm ∧ fm.map Prod.fst = names) :
    construct_fields (.multi bs) =
      names.map (fun f =>
        (f, (bs.map (fun b => blockFieldVal b f)).flatten)) := by
  cases bs with
  | nil => exact absurd rfl hne
  | cons b rest =>
    obtain ⟨fm, hbf, hkeys⟩ := hf b (List.mem_cons_self _ _)
    simp only [construct_fields, List.foldl_cons, hbf]
    rw [foldl_upsert_disjoint fm [] (by simp) (by rw [hkeys]; exact hnnd)]
    rw [List.nil_append]
    rw [foldl_blocks_fields names hnnd rest fm hkeys
      (fun x hx => hf x (List.mem_cons_of_mem _ hx))]
    rw [← block_graph hbf hkeys hnnd, List.map_map]
    refine List.map_congr_left (fun f _ => ?_)
    simp

/-- The fields of the concatenated single block are the same per-name
concatenation. -/
theorem concatBlocks_fields (names : List String) (hnnd : names.Nodup) :
    ∀ (bs : List Block), bs ≠ [] →
      (∀ b ∈ bs, ∃ fm, b.fields = some fm ∧ fm.map Prod.fst = names) →
      (concatBlocks bs).fields = some (names.map (fun f =>
        (f, (bs.map (fun b => blockFieldVal b f)).flatten)))
  | [], h, _ => absurd rfl h
  | [b], _, hf => by
    obtain ⟨fm, hbf, hkeys⟩ := hf b (List.mem_cons_self _ _)
    simp only [concatBlocks, hbf, List.map_cons, List.map_nil,
      List.flatten_cons, List.flatten_nil, List.append_nil]
    exact congrArg some (block_graph hbf hkeys hnnd).symm
  | b :: b2 :: bs, _, hf => by
    obtain ⟨fm, hbf, hkeys⟩ := hf b (List.mem_cons_self _ _)
    have ih := concatBlocks_fields names hnnd (b2 :: bs) (by simp)
      (fun x hx => hf x (List.mem_cons_of_mem _ hx))
    simp only [concatBlocks, appendBlocks, hbf, ih, mergeFields]
    refine congrArg some ?_
    rw [← block_graph hbf hkeys hnnd, List.map_map]
    refine List.map_congr_left (fun f hfm => ?_)
    simp only [Function.comp_apply, List.map_cons, List.flatten_cons]
    rw [lookup_map_graph _ names f hfm]
    simp

/-- C7: a mesh stored as multiple sub-blocks (with a common field-name
list) assembles, through `construct_cells` and `construct_fields`, to
exactly the block-iteration-order concatenation of the per-block gathers
and field values; consequently it assembles to the same data as the
single block holding the concatenation, and produces identical
comparison outcomes against any mesh on either side. -/
theorem multiBlock_concat (bs : List Block) (names : List String)
    (hne : bs ≠ [])
    (hvalid : ∀ b ∈ bs, ∀ c ∈ b.conn, ∀ i ∈ c, i < b.points.length)
    (hnnd : names.Nodup)
    (hf : ∀ b ∈ bs, ∃ fm, b.fields = some fm ∧ fm.map Prod.fst = names) :
    construct_cells (.multi bs) = some ((bs.map gatherBlock).flatten) ∧
    construct_fields (.multi bs) =
      names.map (fun f =>
        (f, (bs.map (fun b => blockFieldVal b f)).flatten)) ∧
    meshData (.multi bs) = meshData (.single (concatBlocks bs)) ∧
    (∀ m, compare_meshes (.multi bs) m =
      compare_meshes (.single (concatBlocks bs)) m) ∧
    (∀ m, compare_meshes m (.multi bs) =
      compare_meshes m (.single (concatBlocks bs))) := by
  obtain ⟨b, rest, rfl⟩ : ∃ b rest, bs = b :: rest := by
    cases bs with
    | nil => exact absurd rfl hne
    | cons b rest => exact ⟨b, rest, rfl⟩
  have hcells := construct_cells_multi b rest
  have hfields := construct_fields_multi (b :: rest) names hne hnnd hf
  have hdata : meshData (.multi (b :: rest)) =
      meshData (.single (concatBlocks (b :: rest))) := by
    rw [meshData, meshData, hcells]
    simp only [construct_cells, Option.map_some]
    refine congrArg some ?_
    refine congrArg₂ MeshData.mk ?_ ?_
    · exact (gatherBlock_concat (b :: rest) hne hvalid).symm
    · rw [hfields]
      simp only [construct_fields]
      rw [concatBlocks_fields names hnnd (b :: rest) hne hf]
      rfl
  refine ⟨hcells, hfields, hdata, ?_, ?_⟩
  · intro m
    rw [compare_meshes, compare_meshes, hdata]
  · intro m
    rw [compare_meshes, compare_meshes, hdata]

/-- Witness for C7: two concrete one-cell blocks sharing field `f`. -/
theorem multiBlock_concat_witness :
    meshData (.multi [⟨[[0]], [[0]], some [("f", [1])]⟩,
        ⟨[[1]], [[0]], some [("f", [2])]⟩]) =
      meshData (.single (concatBlocks [⟨[[0]], [[0]], some [("f", [1])]⟩,
        ⟨[[1]], [[0]], some [("f", [2])]⟩])) :=
  (multiBlock_concat
    [⟨[[0]], [[0]], some [("f", [1])]⟩, ⟨[[1]], [[0]], some [("f", [2])]⟩]
    ["f"] (by simp) (by decide) (by decide)
    (by
      intro b hb
      rcases List.mem_cons.1 hb with rfl | hb
      · exact ⟨[("f", [1])], rfl, rfl⟩
      · rw [List.mem_singleton.1 hb]
        exact ⟨[("f", [2])], rfl, rfl⟩)).2.2.1

/-- Updating the present entry of a name rewrites its looked-up value. -/
theorem lookup_map_upd (acc : FieldMap) (g : String) (v : FieldData) :
    (acc.map (fun gw =>
      if gw.1 = g then (gw.1, gw.2 ++ v) else gw)).lookup g =
      (acc.lookup g).map (fun u => u ++ v) := by
  induction acc with
  | nil => rfl
  | cons a rest ih =>
    obtain ⟨x, u⟩ := a
    by_cases hx : x = g
    · subst hx
      simp [List.lookup_cons]
    · have hgx : ¬(g == x) = true := by
        simp only [beq_iff_eq]
        exact fun hh => hx hh.symm
      simp [List.lookup_cons, hx, hgx, ih]

/-- Updating one name's entry leaves every other lookup unchanged. -/
theorem lookup_map_upd_ne (acc : FieldMap) {fN g : String} (v : FieldData)
    (h : fN ≠ g) :
    (acc.map (fun gw =>
      if gw.1 = g then (gw.1, gw.2 ++ v) else gw)).lookup fN =
      acc.lookup fN := by
  induction acc with
  | nil => rfl
  | cons a rest ih =>
    obtain ⟨x, u⟩ := a
    by_cases hx : x = g
    · subst hx
      have hfx : ¬(fN == x) = true := by simpa using h
      simp [List.lookup_cons, hfx, ih]
    · simp only [List.map_cons, if_neg hx, List.lookup_cons]
      cases hfx : (fN == x) <;> simp [hfx, ih]

/-- The lookup of one upsert step, covering both its branches. -/
theorem lookup_upsertField (acc : FieldMap) (g fN : String) (v : FieldData) :
    (upsertField acc (g, v)).lookup fN =
      if fN = g then optApp (acc.lookup g) (some v) else acc.lookup fN := by
  by_cases hfg : fN = g
  · subst hfg
    cases hl : acc.lookup fN with
    | none =>
      have hns : (acc.lookup fN).isSome = false := by simp [hl]
      rw [if_pos rfl]
      rw [show upsertField acc (fN, v) = acc ++ [(fN, v)] by
        simp [upsertField, hns]]
      rw [List.lookup_append, hl]
      simp [optApp]
    | some u =>
      have hs : (acc.lookup fN).isSome := by simp [hl]
      rw [if_pos rfl, upsert_present acc fN v hs, lookup_map_upd, hl]
      simp [optApp]
  · rw [if_neg hfg]
    by_cases hs : (acc.lookup g).isSome
    · rw [upsert_present acc g v hs]
      exact lookup_map_upd_ne acc v hfg
    · have hns : (acc.lookup g).isSome = false := by
        simp only [Bool.not_eq_true] at hs
        exact hs
      rw [show upsertField acc (g, v) = acc ++ [(g, v)] by
        simp [upsertField, hns]]
      rw [List.lookup_append]
      have hN : List.lookup fN [(g, v)] = none := by
        simp [List.lookup_cons, show ¬(fN == g) = true by simpa using hfg]
      rw [hN]
      cases acc.lookup fN <;> rfl

/-- Discarding an empty contribution. -/
theorem optApp_none (st : Option FieldData) : optApp st none = st := by
  cases st <;> rfl

/-- Looking a name up after folding in one whole field group. -/
theorem lookup_foldl_upsert :
    ∀ (fm acc : FieldMap) (fN : String), (fm.map Prod.fst).Nodup →
      (fm.foldl upsertField acc).lookup fN =
        optApp (acc.lookup fN) (fm.lookup fN)
  | [], acc, fN, _ => (optApp_none _).symm
  | (g, v) :: rest, acc, fN, hnd => by
    simp only [List.map_cons, List.nodup_cons] at hnd
    simp only [List.foldl_cons]
    rw [lookup_foldl_upsert rest _ fN hnd.2, lookup_upsertField acc g fN v]
    by_cases hfg : fN = g
    · subst hfg
      have hrest : rest.lookup fN = none :=
        lookup_eq_none_of_notMem_keys hnd.1
      rw [if_pos rfl, hrest, optApp_none, List.lookup_cons_self]
    · rw [if_neg hfg]
      have hcons : ((g, v) :: rest : FieldMap).lookup fN = rest.lookup fN := by
        simp [List.lookup_cons, show ¬(fN == g) = true by simpa using hfg]
      rw [hcons]

/-- Looking a name up through the whole multi-block field fold: each
block contributes its own looked-up values in order. -/
theorem lookup_construct_fields_blocks :
    ∀ (bs : List Block) (acc : FieldMap) (fN : String),
      (∀ b ∈ bs, ∀ fm, b.fields = some fm → (fm.map Prod.fst).Nodup) →
      (bs.foldl (fun out b =>
        match b.fields with
        | none => out
        | some fm => fm.foldl upsertField out) acc).lookup fN =
      bs.foldl (fun st b => optApp st ((b.fields.getD []).lookup fN))
        (acc.lookup fN)
  | [], _, _, _ => rfl
  | b :: bs, acc, fN, hnd => by
    simp only [List.foldl_cons]
    cases hbf : b.fields with
    | none =>
      rw [lookup_construct_fields_blocks bs acc fN
        (fun x hx => hnd x (List.mem_cons_of_mem _ hx))]
      simp [optApp_none]
    | some fm =>
      rw [lookup_construct_fields_blocks bs _ fN
        (fun x hx => hnd x (List.mem_cons_of_mem _ hx))]
      rw [lookup_foldl_upsert fm acc fN
        (hnd b (List.mem_cons_self _ _) fm hbf)]
      simp

/-- Length bookkeeping of one accumulation step. -/
theorem optApp_getD_length (st x : Option FieldData) :
    ((optApp st x).getD []).length =
      (st.getD []).length + (x.getD []).length := by
  cases st <;> cases x <;> simp [optApp]

/-- The accumulated value sequence of a field is exactly as long as the
sum of the per-block contributions. -/
theorem foldl_optApp_length (fN : String) :
    ∀ (bs : List Block) (st : Option FieldData),
      ((bs.foldl (fun st b =>
        optApp st ((b.fields.getD []).lookup fN)) st).getD []).length =
      (st.getD []).length +
        (bs.map (fun b =>
          (((b.fields.getD []).lookup fN).getD []).length)).sum
  | [], st => by simp
  | b :: bs, st => by
    simp only [List.foldl_cons, List.map_cons, List.sum_cons]
    rw [foldl_optApp_length fN bs _, optApp_getD_length, Nat.add_assoc]

/-- The accumulated value of a field is present once any block
contributes to it. -/
theorem foldl_optApp_isSome (fN : String) :
    ∀ (bs : List Block) (st : Option FieldData),
      ((∃ b ∈ bs, ((b.fields.getD []).lookup fN).isSome) ∨ st.isSome) →
      (bs.foldl (fun st b =>
        optApp st ((b.fields.getD []).lookup fN)) st).isSome
  | [], st, h => by
    rcases h with ⟨b, hb, _⟩ | hs
    · exact absurd hb (List.not_mem_nil b)
    · exact hs
  | b :: bs, st, h => by
    simp only [List.foldl_cons]
    apply foldl_optApp_isSome fN bs
    rcases h with ⟨b2, hb2, hs2⟩ | hs
    · rcases List.mem_cons.1 hb2 with rfl | hb2
      · right
        cases hx : (b2.fields.getD []).lookup fN with
        | none => rw [hx] at hs2; simp at hs2
        | some u => cases st <;> simp [optApp]
      · exact Or.inl ⟨b2, hb2, hs2⟩
    · right
      cases hst : st with
      | none => rw [hst] at hs; simp at hs
      | some u =>
        cases hx : (b.fields.getD []).lookup fN <;> simp [optApp]

/-- A successful lookup names an actual entry. -/
theorem mem_of_lookup_eq_some {fs : FieldMap} {fN : String} {v : FieldData}
    (h : fs.lookup fN = some v) : (fN, v) ∈ fs := by
  rcases List.lookup_eq_some_iff.1 h with ⟨l1, l2, rfl, _⟩
  simp

/-- One upsert step preserves distinctness of the accumulated names. -/
theorem upsertField_keys_nodup (acc : FieldMap) (fv : String × FieldData)
    (h : (acc.map Prod.fst).Nodup) :
    ((upsertField acc fv).map Prod.fst).Nodup := by
  obtain ⟨f, v⟩ := fv
  by_cases hs : (acc.lookup f).isSome
  · rw [upsert_present acc f v hs, List.map_map]
    rw [show (Prod.fst ∘ fun gw : String × FieldData =>
      if gw.1 = f then (gw.1, gw.2 ++ v) else gw) = Prod.fst by
        funext gw
        by_cases hg : gw.1 = f <;> simp [hg]]
    exact h
  · have hns : (acc.lookup f).isSome = false := by
      simp only [Bool.not_eq_true] at hs
      exact hs
    have hno : f ∉ acc.map Prod.fst := by
      intro hmem
      apply hs
      rw [List.lookup_isSome_iff]
      obtain ⟨p, hp, he⟩ := List.mem_map.1 hmem
      exact ⟨p, hp, by simp [he]⟩
    rw [show upsertField acc (f, v) = acc ++ [(f, v)] by
      simp [upsertField, hns]]
    rw [List.map_append]
    simp [List.nodup_append, h, hno]

/-- Folding a whole field group preserves distinctness of names. -/
theorem foldl_upsert_keys_nodup :
    ∀ (fm acc : FieldMap), (acc.map Prod.fst).Nodup →
      ((fm.foldl upsertField acc).map Prod.fst).Nodup
  | [], _, h => h
  | fv :: rest, acc, h =>
    foldl_upsert_keys_nodup rest _ (upsertField_keys_nodup acc fv h)

/-- A multi-block mesh always assembles a field mapping with pairwise
distinct names. -/
theorem construct_fields_multi_nodup (bs : List Block) :
    ((construct_fields (.multi bs)).map Prod.fst).Nodup := by
  suffices h : ∀ (cs : List Block) (acc : FieldMap),
      (acc.map Prod.fst).Nodup →
      ((cs.foldl (fun out b =>
        match b.fields with
        | none => out
        | some fm => fm.foldl upsertField out) acc).map Prod.fst).Nodup by
    simpa [construct_fields] using h bs [] (by simp)
  intro cs
  induction cs with
  | nil => exact fun acc h => h
  | cons b rest ih =>
    intro acc h
    simp only [List.foldl_cons]
    cases hbf : b.fields with
    | none => exact ih acc h
    | some fm => exact ih _ (foldl_upsert_keys_nodup fm acc h)

/-- A successful fancy indexing has every index in range. -/
theorem permuteField_bounds {idx : List ℕ} {v : FieldData} {u : List ℚ}
    (h : permuteField idx v = some u) : ∀ j ∈ idx, j < v.length := by
  by_cases hc : idx.all (fun i => decide (i < v.length)) = true
  · rw [List.all_eq_true] at hc
    exact fun j hj => of_decide_eq_true (hc j hj)
  · rw [permuteField, if_neg hc] at h
    exact absurd h (by simp)

/-- Comparing a field mapping against itself with a too-short value
sequence somewhere reaches an out-of-bounds fancy index. -/
theorem checkFields_self_indexError :
    ∀ (fs all : FieldMap) (i : List ℕ) (N : ℕ),
      (all.map Prod.fst).Nodup → (∀ fv ∈ fs, fv ∈ all) →
      (N - 1) ∈ i → (∃ fv ∈ fs, fv.2.length < N) →
      ∃ g, checkFields all i i fs = .indexError g
  | [], _, _, _, _, _, _, hbad => by
    obtain ⟨fv, hfv, _⟩ := hbad
    exact absurd hfv (List.not_mem_nil fv)
  | (f, v) :: rest, all, i, N, hnd, hmem, hNi, hbad => by
    have hl : all.lookup f = some v :=
      lookup_of_mem_nodup hnd (hmem (f, v) (List.mem_cons_self _ _))
    rw [checkFields, hl]
    cases hp1 : permuteField i v with
    | none => exact ⟨f, by simp [hp1]⟩
    | some w1 =>
      have hvN : ¬v.length < N := by
        intro hlt
        have hb := permuteField_bounds hp1 (N - 1) hNi
        omega
      have hbad2 : ∃ fv ∈ rest, fv.2.length < N := by
        obtain ⟨fv, hfv, hflen⟩ := hbad
        rcases List.mem_cons.1 hfv with rfl | hfv2
        · exact absurd hflen hvN
        · exact ⟨fv, hfv2, hflen⟩
      obtain ⟨g, hg⟩ := checkFields_self_indexError rest all i N hnd
        (fun fv hfv => hmem fv (List.mem_cons_of_mem _ hfv)) hNi hbad2
      exact ⟨g, by simp [hp1, fieldValuesDiffer_self w1, hg]⟩

/-- Comparing assembled data against itself, when some field holds fewer
values than there are cells, terminates in an uncontrolled
`IndexError`. -/
theorem compareData_self_indexError (d : MeshData) (f : String)
    (v : FieldData) (hknd : (d.fields.map Prod.fst).Nodup)
    (hl : d.fields.lookup f = some v) (hlen : v.length < d.cells.length) :
    ∃ g, compareData d d = .indexError g := by
  rw [compareData]
  rw [if_neg (fun hh => hh rfl), if_neg (fun hh => hh rfl)]
  refine checkFields_self_indexError d.fields d.fields (argsort d.cells)
    d.cells.length hknd (fun fv h => h) ?_
    ⟨(f, v), mem_of_lookup_eq_some hl, hlen⟩
  exact ((argsort_perm d.cells).mem_iff).2 (List.mem_range.2 (by omega))

/-- C9: in a multi-block mesh where field `f` is present in some blocks
and absent from a block with at least one cell, `construct_fields`
accumulates for `f` a value sequence strictly shorter than the total
cell count, and the comparison of the mesh against itself then indexes a
field sequence with a cell-count-length permutation and terminates with
an uncontrolled out-of-bounds indexing error instead of a verdict. -/
theorem partialField_crash (bs : List Block) (f : String)
    (hbnd : ∀ b ∈ bs, ∀ fm, b.fields = some fm → (fm.map Prod.fst).Nodup)
    (hlen : ∀ b ∈ bs, ∀ fm, b.fields = some fm →
      ∀ fv ∈ fm, fv.2.length = b.conn.length)
    (hpresent : ∃ b ∈ bs, ∃ fm, b.fields = some fm ∧ f ∈ fm.map Prod.fst)
    (habsent : ∃ b ∈ bs, b.conn ≠ [] ∧
      ∀ fm, b.fields = some fm → f ∉ fm.map Prod.fst) :
    ∃ v, (construct_fields (.multi bs)).lookup f = some v ∧
      ∃ cs, construct_cells (.multi bs) = some cs ∧ v.length < cs.length ∧
        ∃ g, compare_meshes (.multi bs) (.multi bs) =
          some (.indexError g) := by
  obtain ⟨b0, rest0, rfl⟩ : ∃ b0 rest0, bs = b0 :: rest0 := by
    cases bs with
    | nil =>
      obtain ⟨b, hb, _⟩ := hpresent
      exact absurd hb (List.not_mem_nil b)
    | cons x y => exact ⟨x, y, rfl⟩
  have hlook : (construct_fields (.multi (b0 :: rest0))).lookup f =
      (b0 :: rest0).foldl
        (fun st b => optApp st ((b.fields.getD []).lookup f)) none := by
    simp only [construct_fields]
    simpa using lookup_construct_fields_blocks (b0 :: rest0) [] f hbnd
  have hsome : ((b0 :: rest0).foldl
      (fun st b => optApp st ((b.fields.getD []).lookup f)) none).isSome := by
    apply foldl_optApp_isSome
    left
    obtain ⟨b, hb, fm, hbf, hfk⟩ := hpresent
    refine ⟨b, hb, ?_⟩
    rw [hbf]
    simp only [Option.getD_some]
    rw [List.lookup_isSome_iff]
    obtain ⟨p, hp, he⟩ := List.mem_map.1 hfk
    exact ⟨p, hp, by simp [he]⟩
  obtain ⟨v, hv⟩ := Option.isSome_iff_exists.1 hsome
  have hcells := construct_cells_multi b0 rest0
  have hvlen : v.length < (((b0 :: rest0).map gatherBlock).flatten).length := by
    have h1 := foldl_optApp_length f (b0 :: rest0) none
    rw [hv] at h1
    simp only [Option.getD_some, Option.getD_none, List.length_nil,
      Nat.zero_add] at h1
    have h2 : (((b0 :: rest0).map gatherBlock).flatten).length =
        ((b0 :: rest0).map (fun b => b.conn.length)).sum := by
      rw [List.length_flatten, List.map_map]
      refine congrArg List.sum (List.map_congr_left (fun b _ => ?_))
      simp [gatherBlock, gather]
    rw [h1, h2]
    apply List.sum_lt_sum
    · intro b hb
      cases hbf : b.fields with
      | none => simp [hbf]
      | some fm =>
        cases hlf : fm.lookup f with
        | none => simp [hbf, hlf]
        | some u =>
          have := hlen b hb fm hbf (f, u) (mem_of_lookup_eq_some hlf)
          simp [hbf, hlf, this]
    · obtain ⟨b, hb, hconn, hnf⟩ := habsent
      refine ⟨b, hb, ?_⟩
      cases hbf : b.fields with
      | none =>
        simpa [hbf] using List.length_pos.2 hconn
      | some fm =>
        have hlf : fm.lookup f = none :=
          lookup_eq_none_of_notMem_keys (hnf fm hbf)
        simpa [hbf, hlf] using List.length_pos.2 hconn
  refine ⟨v, hlook.trans hv, ((b0 :: rest0).map gatherBlock).flatten,
    hcells, hvlen, ?_⟩
  have hmd : meshData (.multi (b0 :: rest0)) =
      some ⟨((b0 :: rest0).map gatherBlock).flatten,
        construct_fields (.multi (b0 :: rest0))⟩ := by
    rw [meshData, hcells]
    rfl
  obtain ⟨g, hg⟩ := compareData_self_indexError
    ⟨((b0 :: rest0).map gatherBlock).flatten,
      construct_fields (.multi (b0 :: rest0))⟩ f v
    (construct_fields_multi_nodup (b0 :: rest0)) (hlook.trans hv) hvlen
  refine ⟨g, ?_⟩
  rw [compare_meshes, hmd]
  exact congrArg some hg

/-- Witness for C9: field `f` present only in the first of two blocks. -/
theorem partialField_crash_witness :
    ∃ v, (construct_fields (.multi [⟨[[0]], [[0]], some [("f", [1])]⟩,
        ⟨[[1]], [[0]], none⟩])).lookup "f" = some v ∧
      ∃ cs, construct_cells (.multi [⟨[[0]], [[0]], some [("f", [1])]⟩,
        ⟨[[1]], [[0]], none⟩]) = some cs ∧ v.length < cs.length ∧
        ∃ g, compare_meshes
          (.multi [⟨[[0]], [[0]], some [("f", [1])]⟩, ⟨[[1]], [[0]], none⟩])
          (.multi [⟨[[0]], [[0]], some [("f", [1])]⟩, ⟨[[1]], [[0]], none⟩]) =
          some (.indexError g) :=
  partialField_crash
    [⟨[[0]], [[0]], some [("f", [1])]⟩, ⟨[[1]], [[0]], none⟩] "f"
    (by
      intro b hb fm hfm
      rcases List.mem_cons.1 hb with rfl | hb
      · have hfm2 : (some [("f", [(1 : ℚ)])] : Option FieldMap) = some fm :=
          hfm
        obtain rfl := Option.some.inj hfm2
        simp
      · exact absurd hfm (by rw [List.mem_singleton.1 hb]; simp))
    (by
      intro b hb fm hfm fv hfv
      rcases List.mem_cons.1 hb with rfl | hb
      · have hfm2 : (some [("f", [(1 : ℚ)])] : Option FieldMap) = some fm :=
          hfm
        obtain rfl := Option.some.inj hfm2
        rw [List.mem_singleton.1 hfv]
        rfl
      · exact absurd hfm (by rw [List.mem_singleton.1 hb]; simp))
    ⟨_, List.mem_cons_self _ _, [("f", [1])], rfl, by simp⟩
    ⟨⟨[[1]], [[0]], none⟩, by simp, by simp, fun fm hfm => by simp at hfm⟩

/-- Witness for C4: field `a` present on the left, absent on the right. -/
theorem missingField_asymmetry_witness :
    ("a" ∈ ([("a", [(0 : ℚ)])] : FieldMap).map Prod.fst) ∧
    compareData ⟨[[[(0 : ℚ)]]], [("a", [0])]⟩ ⟨[[[0]]], []⟩ ≠ .same :=
  ⟨by simp,
    (missingField_asymmetry ⟨[[[(0 : ℚ)]]], [("a", [0])]⟩ ⟨[[[0]]], []⟩ "a"
      (by simp) (by simp)).1⟩

end Samurai
